import Mathlib

/-!
Verification development for `extract_comments.py`: a shallow embedding of the
comment-extraction / translation-export / re-import / re-insertion pipeline,
with theorems settling the frozen claims about it.

Strings are modelled as `List Char`; Python `str` operations are embedded as
executable recursions over them (ASCII-faithful: the whitespace class, the
line-boundary class and the regex word class are modelled over their ASCII
members, which is what every claim here exercises). Recursions whose measure
is not structural are driven by an explicit fuel argument so that every
definition evaluates inside the kernel; the fuel is always instantiated with a
sufficient bound and a congruence lemma shows any sufficient fuel gives the
same result.
-/

/-- Convert a Lean string literal to the `List Char` representation used
throughout this development. -/
def str (s : String) : List Char := s.data

/-- Python default whitespace class (ASCII members), as used by `str.strip`
and the regex class backslash-s. -/
def wsChar (c : Char) : Bool :=
  c = ' ' || c = '\t' || c = '\n' || c = '\r' || c = '\x0b' || c = '\x0c'

/-- Python `str.strip()`: drop leading and trailing whitespace. -/
def pyStrip (l : List Char) : List Char :=
  ((l.dropWhile wsChar).reverse.dropWhile wsChar).reverse

/-- `escape_tabs` (src lines 203-207): Python `text.replace("\t", "\\t")` —
every real tab character becomes the two-character sequence backslash+t.
Embedded as the direct recursion equivalent to `str.replace` with a
one-character pattern. -/
def escape_tabs : List Char → List Char
  | [] => []
  | c :: rest => if c = '\t' then '\\' :: 't' :: escape_tabs rest else c :: escape_tabs rest

/-- `unescape_tabs` (src lines 209-213): Python `text.replace("\\t", "\t")` —
each (left-to-right, non-overlapping) occurrence of backslash+t becomes a real
tab. -/
def unescape_tabs : List Char → List Char
  | [] => []
  | [c] => [c]
  | c1 :: c2 :: rest =>
    if c1 = '\\' ∧ c2 = 't' then '\t' :: unescape_tabs rest
    else c1 :: unescape_tabs (c2 :: rest)

/-- Whether the two-character sequence backslash+t occurs in `l`. -/
def hasBT : List Char → Bool
  | [] => false
  | [_] => false
  | c1 :: c2 :: rest =>
    if c1 = '\\' ∧ c2 = 't' then true else hasBT (c2 :: rest)

theorem escape_tabs_head_not_t (r : List Char) (h : r.head? ≠ some 't') :
    (escape_tabs r).head? ≠ some 't' := by
  cases r with
  | nil => simp [escape_tabs]
  | cons c rest =>
    by_cases hc : c = '\t'
    · subst hc; simp [escape_tabs]
    · simp [escape_tabs, hc] at *
      exact h

theorem unescape_tabs_cons_of_ne (c : Char) (r : List Char)
    (h : ¬ (c = '\\' ∧ r.head? = some 't')) :
    unescape_tabs (c :: r) = c :: unescape_tabs r := by
  cases r with
  | nil => rfl
  | cons c' rest =>
    have : ¬ (c = '\\' ∧ c' = 't') := by
      intro hx; exact h ⟨hx.1, by simp [hx.2]⟩
    simp [unescape_tabs, this]

theorem hasBT_cons_of_ne (c : Char) (r : List Char)
    (h : ¬ (c = '\\' ∧ r.head? = some 't')) : hasBT (c :: r) = hasBT r := by
  cases r with
  | nil => rfl
  | cons c' rest =>
    have : ¬ (c = '\\' ∧ c' = 't') := by
      intro hx; exact h ⟨hx.1, by simp [hx.2]⟩
    simp [hasBT, this]

theorem unescape_escape_of_no_bt :
    ∀ t : List Char, hasBT t = false → unescape_tabs (escape_tabs t) = t := by
  intro t
  induction t with
  | nil => intro _; rfl
  | cons c rest ih =>
    intro h
    by_cases hc : c = '\t'
    · subst hc
      have hrest : hasBT rest = false := by
        rwa [hasBT_cons_of_ne '\t' rest (by simp)] at h
      simp only [escape_tabs, if_pos rfl]
      simp [unescape_tabs, ih hrest]
    · -- head is not a tab: escape keeps it
      simp only [escape_tabs, if_neg hc]
      by_cases hb : c = '\\'
      · subst hb
        -- rest cannot start with 't' (that would be a backslash-t in t itself)
        have hrt : rest.head? ≠ some 't' := by
          intro hrt
          cases rest with
          | nil => simp at hrt
          | cons c' rr =>
            simp at hrt
            subst hrt
            simp [hasBT] at h
        have hrest : hasBT rest = false := by
          rwa [hasBT_cons_of_ne '\\' rest (fun hx => hrt hx.2)] at h
        have hhead : (escape_tabs rest).head? ≠ some 't' :=
          escape_tabs_head_not_t rest hrt
        rw [unescape_tabs_cons_of_ne '\\' (escape_tabs rest)
              (fun hx => hhead hx.2), ih hrest]
      · have hrest : hasBT rest = false := by
          rwa [hasBT_cons_of_ne c rest (fun hx => hb hx.1)] at h
        rw [unescape_tabs_cons_of_ne c (escape_tabs rest)
              (fun hx => hb hx.1), ih hrest]

theorem length_dropWhile_le' (p : Char → Bool) (l : List Char) :
    (l.dropWhile p).length ≤ l.length := by
  induction l with
  | nil => simp
  | cons c r ih =>
    by_cases h : p c
    · rw [List.dropWhile_cons, if_pos h]
      simp only [List.length_cons]
      exact Nat.le_succ_of_le ih
    · rw [List.dropWhile_cons, if_neg h]

/-- The decimal digit character for a value below ten. -/
def digitOf (d : Nat) : Char := Char.ofNat (48 + d)

/-- Fuel-driven helper for `natDigits`; any fuel exceeding the number is
enough. -/
def natDigitsAux : Nat → Nat → List Char
  | 0, _ => []
  | fuel + 1, n =>
    if n < 10 then [digitOf n]
    else natDigitsAux fuel (n / 10) ++ [digitOf (n % 10)]

/-- Decimal digits of a natural number, most significant first (the digit
string of Python's `"%d"` formatting). -/
def natDigits (n : Nat) : List Char := natDigitsAux (n + 1) n

theorem natDigitsAux_congr : ∀ f1 : Nat, ∀ f2 n : Nat, n < f1 → n < f2 →
    natDigitsAux f1 n = natDigitsAux f2 n := by
  intro f1
  induction f1 with
  | zero => intro f2 n h1 _; omega
  | succ g ih =>
    intro f2 n h1 h2
    cases f2 with
    | zero => omega
    | succ g2 =>
      by_cases h : n < 10
      · simp [natDigitsAux, h]
      · simp only [natDigitsAux, if_neg h]
        rw [ih g2 (n / 10) (by omega) (by omega)]

/-- The defining recursion of `natDigits`, fuel eliminated. -/
theorem natDigits_eq (n : Nat) : natDigits n =
    if n < 10 then [digitOf n] else natDigits (n / 10) ++ [digitOf (n % 10)] := by
  have hd : natDigits n =
      if n < 10 then [digitOf n] else natDigitsAux n (n / 10) ++ [digitOf (n % 10)] := rfl
  rw [hd]
  by_cases h : n < 10
  · rw [if_pos h, if_pos h]
  · rw [if_neg h, if_neg h,
      natDigitsAux_congr n (n / 10 + 1) (n / 10) (by omega) (by omega)]
    rfl

/-- Python `f"{n:0{w}d}"`: decimal digits left-padded with zeros to width `w`
(wider numbers are never truncated). -/
def pad (w n : Nat) : List Char :=
  List.replicate (w - (natDigits n).length) '0' ++ natDigits n

/-- The fragment index `f"{base}-{ctr:03d}-{seg:02d}"` (src lines 121, 152,
158): basename, per-file block number, per-block segment number. -/
def fmtIndex (base : List Char) (b s : Nat) : List Char :=
  base ++ '-' :: (pad 3 b ++ '-' :: pad 2 s)

def digitVal (c : Char) : Nat := c.toNat - 48

/-- The numeric value of a digit string (most significant digit first). -/
def digitsVal (l : List Char) : Nat := l.foldl (fun a c => 10 * a + digitVal c) 0

theorem digitOf_isDigit (d : Nat) (h : d < 10) : (digitOf d).isDigit = true := by
  interval_cases d <;> decide

theorem digitVal_digitOf (d : Nat) (h : d < 10) : digitVal (digitOf d) = d := by
  interval_cases d <;> decide

theorem natDigits_isDigit (n : Nat) : ∀ c ∈ natDigits n, c.isDigit = true := by
  induction n using Nat.strong_induction_on with
  | _ n ih =>
    rw [natDigits_eq]
    by_cases h : n < 10
    · rw [if_pos h]
      intro c hc
      simp at hc
      subst hc
      exact digitOf_isDigit n h
    · rw [if_neg h]
      intro c hc
      rw [List.mem_append] at hc
      rcases hc with hc | hc
      · exact ih (n / 10) (by omega) c hc
      · simp at hc
        subst hc
        exact digitOf_isDigit _ (Nat.mod_lt n (by omega))

theorem digitsVal_append_digit (l : List Char) (c : Char) :
    digitsVal (l ++ [c]) = 10 * digitsVal l + digitVal c := by
  simp [digitsVal, List.foldl_append]

theorem digitsVal_natDigits (n : Nat) : digitsVal (natDigits n) = n := by
  induction n using Nat.strong_induction_on with
  | _ n ih =>
    rw [natDigits_eq]
    by_cases h : n < 10
    · rw [if_pos h]
      simp [digitsVal, digitVal_digitOf n h]
    · rw [if_neg h, digitsVal_append_digit, ih (n / 10) (by omega),
        digitVal_digitOf _ (Nat.mod_lt n (by omega))]
      omega

theorem digitsVal_replicate_zero (k : Nat) (l : List Char) :
    digitsVal (List.replicate k '0' ++ l) = digitsVal l := by
  induction k with
  | zero => simp
  | succ m ih =>
    rw [List.replicate_succ, List.cons_append]
    show (List.replicate m '0' ++ l).foldl (fun a c => 10 * a + digitVal c)
      (10 * 0 + digitVal '0') = digitsVal l
    have : 10 * 0 + digitVal '0' = 0 := by decide
    rw [this]
    exact ih

theorem digitsVal_pad (w n : Nat) : digitsVal (pad w n) = n := by
  rw [pad, digitsVal_replicate_zero, digitsVal_natDigits]

theorem pad_inj (w : Nat) (a b : Nat) (h : pad w a = pad w b) : a = b := by
  have := congrArg digitsVal h
  rwa [digitsVal_pad, digitsVal_pad] at this

theorem pad_isDigit (w n : Nat) : ∀ c ∈ pad w n, c.isDigit = true := by
  intro c hc
  rw [pad, List.mem_append] at hc
  rcases hc with hc | hc
  · rw [List.eq_of_mem_replicate hc]; decide
  · exact natDigits_isDigit n c hc

theorem pad_ne_dash (w n : Nat) : ∀ c ∈ pad w n, c ≠ '-' := by
  intro c hc he
  have := pad_isDigit w n c hc
  subst he
  simp [Char.isDigit] at this

theorem pad_ne_tab (w n : Nat) : ∀ c ∈ pad w n, c ≠ '\t' := by
  intro c hc he
  have := pad_isDigit w n c hc
  subst he
  simp [Char.isDigit] at this

/-- Splitting a string of the shape `A ++ "-" ++ C` with dash-free `A` and `C`
is unambiguous. -/
theorem dash_split (A1 : List Char) :
    ∀ A2 C1 C2 : List Char, (∀ c ∈ A1, c ≠ '-') → (∀ c ∈ A2, c ≠ '-') →
    A1 ++ '-' :: C1 = A2 ++ '-' :: C2 → A1 = A2 ∧ C1 = C2 := by
  induction A1 with
  | nil =>
    intro A2 C1 C2 _ h2 he
    cases A2 with
    | nil => simpa using he
    | cons a A2' =>
      simp at he
      exact absurd he.1.symm (h2 a (by simp))
  | cons a A1' ih =>
    intro A2 C1 C2 h1 h2 he
    cases A2 with
    | nil =>
      simp at he
      exact absurd he.1 (h1 a (by simp))
    | cons b A2' =>
      simp only [List.cons_append, List.cons.injEq] at he
      obtain ⟨hab, htail⟩ := he
      obtain ⟨hA, hC⟩ := ih A2' C1 C2 (fun c hc => h1 c (by simp [hc]))
        (fun c hc => h2 c (by simp [hc])) htail
      exact ⟨by rw [hab, hA], hC⟩

/-- For a fixed basename, the index format is injective in the block and
segment numbers. -/
theorem fmtIndex_inj (base : List Char) (b1 s1 b2 s2 : Nat)
    (h : fmtIndex base b1 s1 = fmtIndex base b2 s2) : b1 = b2 ∧ s1 = s2 := by
  rw [fmtIndex, fmtIndex] at h
  have h2 := List.append_cancel_left h
  rw [List.cons.injEq] at h2
  obtain ⟨hB, hS⟩ := dash_split (pad 3 b1) (pad 3 b2) (pad 2 s1) (pad 2 s2)
    (pad_ne_dash 3 b1) (pad_ne_dash 3 b2) h2.2
  exact ⟨pad_inj 3 b1 b2 hB, pad_inj 2 s1 s2 hS⟩

/-- Comment kind: the two comment styles recognised by the scanner. -/
inductive CKind : Type
  | single : CKind
  | multi : CKind
deriving DecidableEq

/-- One comment block as built by `extract_comments_from_content`
(src lines 122-127 and 162-167): the owning file, the 1-based per-file block
counter, the kind, and the ordered `(index, text)` segment list. -/
structure CommentBlock where
  file : List Char
  block_id : Nat
  kind : CKind
  segments : List (List Char × List Char)
deriving DecidableEq

/-- ASCII line-boundary characters of Python `str.splitlines`. -/
def lbChar (c : Char) : Bool :=
  c = '\n' || c = '\r' || c = '\x0b' || c = '\x0c'

/-- Python `str.splitlines()` (over its ASCII boundaries): split at line
boundaries, treating a carriage-return/newline pair as one boundary, with no
trailing empty line and an empty result on empty input. -/
def splitLines : List Char → List (List Char)
  | [] => []
  | [c] => if lbChar c then [[]] else [[c]]
  | c1 :: c2 :: rest =>
    if c1 = '\r' ∧ c2 = '\n' then [] :: splitLines rest
    else if lbChar c1 then [] :: splitLines (c2 :: rest)
    else
      match splitLines (c2 :: rest) with
      | [] => [[c1]]
      | p :: ps => (c1 :: p) :: ps

/-- `clean_multiline_lines` per-line step (src lines 77-87): Python
`re.sub` applied with the anchored pattern "whitespace run, one or more
asterisks, at most one whitespace" replaced by nothing; a line with no
asterisk after its leading whitespace is returned unchanged. -/
def cleanLine (l : List Char) : List Char :=
  let r := l.dropWhile wsChar
  if r.head? = some '*' then
    let r2 := r.dropWhile (fun c => c = '*')
    match r2 with
    | [] => []
    | c :: tl => if wsChar c then tl else r2
  else l

/-- Interior of a multi-line comment (src lines 138-141): strip the closing
delimiter and the opening one, dropping three characters when the comment
opens with the documentation-style double-asterisk form. -/
def multiInner (raw : List Char) : List Char :=
  if (str "/**").isPrefixOf raw then (raw.take (raw.length - 2)).drop 3
  else (raw.take (raw.length - 2)).drop 2

/-- Length of the shortest prefix of `l` ending in the two-character close
delimiter of a multi-line comment, if any: the lazy regex match for the
block-comment alternative consumes exactly this many characters after the
opening delimiter. -/
def findCloseLen : List Char → Option Nat
  | [] => none
  | [_] => none
  | c1 :: c2 :: rest =>
    if c1 = '*' ∧ c2 = '/' then some 2
    else (findCloseLen (c2 :: rest)).map (· + 1)

/-- The per-line loop of the multi-line branch (src lines 146-156): strip each
cleaned line, skip empties, and number the retained lines with the
incrementing segment counter. -/
def buildSegs (base : List Char) (bid : Nat) :
    Nat → List (List Char) → List (List Char × List Char)
  | _, [] => []
  | k, line :: rest =>
    let s := pyStrip line
    if s = [] then buildSegs base bid k rest
    else (fmtIndex base bid k, s) :: buildSegs base bid (k + 1) rest

/-- Segments of one multi-line comment (src lines 142-161): clean and number
the interior lines; if no line survives, synthesize a single empty-text
segment numbered 1. -/
def mkMultiSegs (base : List Char) (bid : Nat) (raw : List Char) :
    List (List Char × List Char) :=
  let segs := buildSegs base bid 1 ((splitLines (multiInner raw)).map cleanLine)
  if segs = [] then [(fmtIndex base bid 1, [])] else segs

/-- `"\n".join(...)` in list form. -/
def joinSep (sep : List Char) : List (List Char) → List Char
  | [] => []
  | [x] => x
  | x :: xs => x ++ sep ++ joinSep sep xs

/-- The replacement text for a multi-line comment (src line 171): an opening
delimiter line, one placeholder line per segment, and a closing delimiter. -/
def multiPlaceholder (segs : List (List Char × List Char)) : List Char :=
  str "/*" ++ '\n' :: (joinSep ['\n'] (segs.map (fun p => str "PLACEHOLDER_" ++ p.1))
    ++ '\n' :: str "*/")

/-- The scanning loop of `extract_comments_from_content` (src lines 104-177),
fused with the per-match block construction. The regex alternation
(single-line alternative first) over a left-to-right scan is embedded
directly: at a double-slash the single-line match runs to the character before
the next newline (or to the end); at a slash-asterisk the multi-line match
runs to the first close delimiter, and when none exists the scan advances one
character; scanning resumes after each match. Fuel bounds the recursion depth
(the content length is always enough). Returns the rewritten content and the
comment blocks in source order. -/
def extract_go (file base : List Char) : Nat → Nat → List Char → List Char × List CommentBlock
  | 0, _, l => (l, [])
  | _ + 1, _, [] => ([], [])
  | _ + 1, _, [c] => ([c], [])
  | fuel + 1, ctr, c1 :: c2 :: rest =>
    if c1 = '/' ∧ c2 = '/' then
      let seg := pyStrip (rest.takeWhile (fun c => c ≠ '\n'))
      let idx := fmtIndex base ctr 1
      let p := extract_go file base fuel (ctr + 1) (rest.dropWhile (fun c => c ≠ '\n'))
      (str "//PLACEHOLDER_" ++ idx ++ p.1,
       ⟨file, ctr, .single, [(idx, seg)]⟩ :: p.2)
    else if c1 = '/' ∧ c2 = '*' then
      match findCloseLen rest with
      | some k =>
        let raw := c1 :: c2 :: rest.take k
        let segs := mkMultiSegs base ctr raw
        let p := extract_go file base fuel (ctr + 1) (rest.drop k)
        (multiPlaceholder segs ++ p.1, ⟨file, ctr, .multi, segs⟩ :: p.2)
      | none =>
        let p := extract_go file base fuel ctr (c2 :: rest)
        (c1 :: p.1, p.2)
    else
      let p := extract_go file base fuel ctr (c2 :: rest)
      (c1 :: p.1, p.2)

/-- `os.path.basename`: the path component after the last slash. -/
def basename (p : List Char) : List Char :=
  (p.reverse.takeWhile (fun c => c ≠ '/')).reverse

/-- `extract_comments_from_content` (src lines 89-177): scan `content`, build
the block list for `filename` (block counter starting at 1, indices keyed by
the file's basename), and return the placeholder-bearing rewritten content
with the blocks. -/
def extract_comments_from_content (content : List Char) (filename : List Char) :
    List Char × List CommentBlock :=
  extract_go filename (basename filename) content.length 1 content

example : extract_comments_from_content (str "// hello world") (str "file.cpp") =
    (str "//PLACEHOLDER_file.cpp-001-01",
     [⟨str "file.cpp", 1, .single, [(str "file.cpp-001-01", str "hello world")]⟩]) := by
  decide

example :
    (extract_comments_from_content
      (str "/**\n * line one\n * line two\n */") (str "a.h")).2 =
    [⟨str "a.h", 1, .multi,
      [(str "a.h-001-01", str "line one"), (str "a.h-001-02", str "line two")]⟩] := by
  decide

/-- The TranslationMap: an insertion-ordered association list mirroring the
Python dict `translation_mapping`. -/
abbrev TM := List (List Char × List Char)

/-- Python dict assignment `m[k] = v`: an existing key keeps its position and
gets the new value; a new key is appended. -/
def tmInsert : TM → List Char → List Char → TM
  | [], k, v => [(k, v)]
  | (k', v') :: rest, k, v =>
    if k' = k then (k', v) :: rest else (k', v') :: tmInsert rest k v

/-- Python dict membership / subscript lookup. -/
def tmLookup : TM → List Char → Option (List Char)
  | [], _ => none
  | (k', v') :: rest, k => if k' = k then some v' else tmLookup rest k

/-- The escaping applied to a fragment text before writing, when enabled
(src lines 232 and 240). -/
def escIf (esc : Bool) (s : List Char) : List Char := if esc then escape_tabs s else s

/-- Lines of `comments_to_translate_segmented.txt` (src lines 229-233): one
line per fragment, index, one space, the (possibly escaped) text. -/
def segmentedLines (esc : Bool) (blocks : List CommentBlock) : List (List Char) :=
  blocks.flatMap (fun b => b.segments.map (fun p => p.1 ++ ' ' :: escIf esc p.2))

/-- Lines of `comments_to_translate_tsv.txt` (src lines 237-243), numbered
from `n`: per block, a 4-digit line number, one space, the block's (possibly
escaped) texts joined by the literal two-character escape sequence. -/
def tsvLinesFrom (esc : Bool) : Nat → List CommentBlock → List (List Char)
  | _, [] => []
  | n, b :: bs =>
    (pad 4 n ++ ' ' :: joinSep (str "\\t") (b.segments.map (fun p => escIf esc p.2)))
    :: tsvLinesFrom esc (n + 1) bs

def tsvLines (esc : Bool) (blocks : List CommentBlock) : List (List Char) :=
  tsvLinesFrom esc 1 blocks

/-- File content from lines, each terminated by a newline. -/
def unlines (ls : List (List Char)) : List Char := (ls.map (fun l => l ++ ['\n'])).flatten

def segmentedFile (esc : Bool) (blocks : List CommentBlock) : List Char :=
  unlines (segmentedLines esc blocks)

def tsvFile (esc : Bool) (blocks : List CommentBlock) : List Char :=
  unlines (tsvLines esc blocks)

/-- The bulk block delimiter line (src line 250). -/
def bulkDelim (b : CommentBlock) : List Char :=
  str "<||" ++ basename b.file ++ '_' :: (pad 3 b.block_id ++ str "_block_delimiter||>")

/-- Content of `comments_to_translate_bulk.txt` (src lines 247-254): for each
block a delimiter line then one raw (note: never escaped) line per fragment,
and one extra newline written after the loop. -/
def bulkFile (blocks : List CommentBlock) : List Char :=
  (blocks.map (fun b => bulkDelim b ++ '\n' :: unlines (b.segments.map Prod.snd))).flatten
    ++ ['\n']

/-- Whether `p` occurs as a contiguous substring of `l`. -/
def containsSub (p : List Char) : List Char → Bool
  | [] => p.isPrefixOf []
  | c :: rest => p.isPrefixOf (c :: rest) || containsSub p rest

/-- The three translation file formats. -/
inductive TFormat : Type
  | segmented : TFormat
  | tsv : TFormat
  | bulk : TFormat
deriving DecidableEq

/-- `detect_translation_format` (src lines 268-280): on the
whitespace-stripped content, bulk when the bulk marker occurs anywhere (the
source's starts-with test is subsumed by its containment test), else tsv when
a real tab character occurs, else segmented. -/
def detect_translation_format (content : List Char) : TFormat :=
  let c := pyStrip content
  if containsSub (str "<||") c then .bulk
  else if '\t' ∈ c then .tsv
  else .segmented

/-- The line list a parse run works on (src line 289): Python `readlines`
followed by stripping each line's single trailing newline (carriage returns
are not stripped). -/
def fileLines : List Char → List (List Char)
  | [] => []
  | c :: rest =>
    if c = '\n' then [] :: fileLines rest
    else
      match fileLines rest with
      | [] => [[c]]
      | p :: ps => (c :: p) :: ps

/-- Python `line.split(" ", 1)`: split at the first space character, when the
line has one. -/
def firstSpaceSplit (l : List Char) : Option (List Char × List Char) :=
  if ' ' ∈ l then
    some (l.takeWhile (fun c => c ≠ ' '), (l.dropWhile (fun c => c ≠ ' ')).drop 1)
  else none

/-- The segmented import loop (src lines 291-300): skip blank lines; split
each remaining line at its first space into an index and a text and record
the pair; a line with no space is reported (second component: the warned
lines) and skipped. -/
def parseSegmented : List (List Char) → TM → TM × List (List Char)
  | [], m => (m, [])
  | line :: rest, m =>
    if pyStrip line = [] then parseSegmented rest m
    else
      match firstSpaceSplit line with
      | none =>
        let p := parseSegmented rest m
        (p.1, line :: p.2)
      | some (i, t) => parseSegmented rest (tmInsert m i t)

/-- Python `line.split("\\t")`: split on each occurrence of the literal
two-character escape sequence. -/
def splitBT : List Char → List (List Char)
  | [] => [[]]
  | [c] => [[c]]
  | c1 :: c2 :: rest =>
    if c1 = '\\' ∧ c2 = 't' then [] :: splitBT rest
    else
      match splitBT (c2 :: rest) with
      | [] => [[c1]]
      | p :: ps => (c1 :: p) :: ps

/-- Positional recording of one block's translations (src lines 312-313 and
335-336): zip the block's segments with the translated pieces and record each
index. -/
def insertSegs : TM → List (List Char × List Char) → List (List Char) → TM
  | m, [], _ => m
  | m, _ :: _, [] => m
  | m, (i, _) :: ss, t :: ts => insertSegs (tmInsert m i t) ss ts

/-- The tsv import branch after its line-count check (src lines 305-313):
for each block/line pair in order, drop the five-character line-number
prefix, split on the literal escape sequence, fail on a per-block count
mismatch, otherwise record each index positionally. -/
def parseTsvGo : List (CommentBlock × List Char) → TM → Except Unit TM
  | [], m => .ok m
  | (b, line) :: rest, m =>
    let segs := splitBT (line.drop 5)
    if segs.length ≠ b.segments.length then .error ()
    else parseTsvGo rest (insertSegs m b.segments segs)

/-- The tsv import branch (src lines 301-313): fatal when the line count
differs from the block count, then per-block processing. -/
def parseTsv (lines : List (List Char)) (blocks : List CommentBlock) : Except Unit TM :=
  if lines.length ≠ blocks.length then .error ()
  else parseTsvGo (blocks.zip lines) []

/-- A bulk delimiter line test (src line 318). -/
def isDelimLine (l : List Char) : Bool :=
  (str "<||").isPrefixOf l && List.isSuffixOf (str "||>") l

/-- The bulk grouping loop (src lines 315-327): a delimiter line flushes the
current group when nonempty; a blank line is dropped only while the current
group is still empty; every other line appends to the current group; a
trailing nonempty group is flushed at the end. -/
def bulkGroups : List (List Char) → List (List Char) → List (List (List Char))
  | [], cur => if cur.isEmpty then [] else [cur]
  | line :: rest, cur =>
    if isDelimLine line then
      if cur.isEmpty then bulkGroups rest [] else cur :: bulkGroups rest []
    else if (pyStrip line).isEmpty && cur.isEmpty then bulkGroups rest cur
    else bulkGroups rest (cur ++ [line])

/-- The bulk per-block processing (src lines 331-336). -/
def parseBulkGo : List (CommentBlock × List (List Char)) → TM → Except Unit TM
  | [], m => .ok m
  | (b, g) :: rest, m =>
    if g.length ≠ b.segments.length then .error ()
    else parseBulkGo rest (insertSegs m b.segments g)

/-- The bulk import branch (src lines 314-336): group the lines, fatal when
the group count differs from the block count, then per-block processing. -/
def parseBulk (lines : List (List Char)) (blocks : List CommentBlock) : Except Unit TM :=
  let gs := bulkGroups lines []
  if gs.length ≠ blocks.length then .error ()
  else parseBulkGo (blocks.zip gs) []

/-- `parse_translated_comments` (src lines 282-340) over the extracted line
list: build the TranslationMap for the given format. The fatal mismatches
(Python `sys.exit(1)`) are the error outcome; an erroring run produces no
output files. The segmented branch never fails. -/
def parse_translated_comments (fmt : TFormat) (lines : List (List Char))
    (blocks : List CommentBlock) : Except Unit TM :=
  match fmt with
  | .segmented => .ok (parseSegmented lines []).1
  | .tsv => parseTsv lines blocks
  | .bulk => parseBulk lines blocks

/-- One import run on a translation file's raw content: detect the format,
split into lines, parse against the block list (src lines 451-453). -/
def importOutcome (blocks : List CommentBlock) (content : List Char) : Except Unit TM :=
  parse_translated_comments (detect_translation_format content) (fileLines content) blocks

example :
    importOutcome
      [⟨str "f.cpp", 1, .single, [(str "f.cpp-001-01", str "hello")]⟩]
      (segmentedFile true [⟨str "f.cpp", 1, .single, [(str "f.cpp-001-01", str "hello")]⟩])
    = .ok [(str "f.cpp-001-01", str "hello")] := rfl

example :
    importOutcome
      [⟨str "f.cpp", 1, .single, [(str "f.cpp-001-01", str "hello")]⟩]
      (tsvFile true [⟨str "f.cpp", 1, .single, [(str "f.cpp-001-01", str "hello")]⟩])
    = .ok [(str "0001", str "hello")] := rfl

example :
    importOutcome
      [⟨str "f.cpp", 1, .single, [(str "f.cpp-001-01", str "hello")]⟩]
      (bulkFile [⟨str "f.cpp", 1, .single, [(str "f.cpp-001-01", str "hello")]⟩])
    = .error () := rfl

/-- The ASCII members of the placeholder-index regex character class, word
characters plus dash and dot. -/
def phChar (c : Char) : Bool := c.isAlphanum || c = '_' || c = '-' || c = '.'

/-- Python `ph.replace("PLACEHOLDER_", "")` (src line 359): remove every
occurrence of the 12-character marker (fuel-driven; the input length is
enough fuel). -/
def stripPHAux : Nat → List Char → List Char
  | 0, l => l
  | _ + 1, [] => []
  | fuel + 1, c :: rest =>
    if (str "PLACEHOLDER_").isPrefixOf (c :: rest) then
      stripPHAux fuel ((c :: rest).drop 12)
    else c :: stripPHAux fuel rest

def stripPH (l : List Char) : List Char := stripPHAux l.length l

/-- The placeholder substitution pass of `reinsert_translations`
(src lines 356-369): the regex scan for the literal marker followed by one or
more index characters (greedy), with the replacement callback. A matched
index found in the mapping is replaced by its translation (unescaped when
escaping is enabled); an unmapped one leaves the matched token unchanged and
is reported (second component: the warned indices, one per unmapped
occurrence, in scan order). Fuel-driven; the content length is enough. -/
def reinsertAux (esc : Bool) (tm : TM) : Nat → List Char → List Char × List (List Char)
  | 0, l => (l, [])
  | _ + 1, [] => ([], [])
  | fuel + 1, c :: rest =>
    if (str "PLACEHOLDER_").isPrefixOf (c :: rest) ∧
        ((c :: rest).drop 12).takeWhile phChar ≠ [] then
      let run := ((c :: rest).drop 12).takeWhile phChar
      let m := str "PLACEHOLDER_" ++ run
      let after := ((c :: rest).drop 12).dropWhile phChar
      let idx := pyStrip (stripPH m)
      let p := reinsertAux esc tm fuel after
      match tmLookup tm idx with
      | some t => ((if esc then unescape_tabs t else t) ++ p.1, p.2)
      | none => (m ++ p.1, idx :: p.2)
    else
      let p := reinsertAux esc tm fuel rest
      (c :: p.1, p.2)

/-- Placeholder substitution over one file content: rewritten content and the
warned (unmapped) indices in order. -/
def reinsertContent (esc : Bool) (tm : TM) (content : List Char) :
    List Char × List (List Char) :=
  reinsertAux esc tm content.length content

/-- A token of the placeholder lexer: one plain character or one placeholder
match. -/
inductive PTok : Type
  | raw : Char → PTok
  | ph : List Char → PTok
deriving DecidableEq

def ptText : PTok → List Char
  | .raw c => [c]
  | .ph m => m

/-- The placeholder-occurrence scanner: the same lexical discipline as the
substitution pass, producing the token stream instead of substituting. -/
def phToksAux : Nat → List Char → List PTok
  | 0, _ => []
  | _ + 1, [] => []
  | fuel + 1, c :: rest =>
    if (str "PLACEHOLDER_").isPrefixOf (c :: rest) ∧
        ((c :: rest).drop 12).takeWhile phChar ≠ [] then
      .ph (str "PLACEHOLDER_" ++ ((c :: rest).drop 12).takeWhile phChar)
        :: phToksAux fuel (((c :: rest).drop 12).dropWhile phChar)
    else .raw c :: phToksAux fuel rest

def phToks (content : List Char) : List PTok := phToksAux content.length content

/-- A token of the comment scanner: a plain character or a whole comment
span. -/
inductive Tok : Type
  | code : Char → Tok
  | comment : List Char → CKind → Tok
deriving DecidableEq

def tokText : Tok → List Char
  | .code c => [c]
  | .comment raw _ => raw

/-- The comment-span scanner on its own: the same match discipline as
`extract_go`, producing the raw matched spans instead of rewriting. -/
def scanToksAux : Nat → List Char → List Tok
  | 0, _ => []
  | _ + 1, [] => []
  | _ + 1, [c] => [.code c]
  | fuel + 1, c1 :: c2 :: rest =>
    if c1 = '/' ∧ c2 = '/' then
      .comment (c1 :: c2 :: rest.takeWhile (fun c => c ≠ '\n')) .single
        :: scanToksAux fuel (rest.dropWhile (fun c => c ≠ '\n'))
    else if c1 = '/' ∧ c2 = '*' then
      match findCloseLen rest with
      | some k =>
        .comment (c1 :: c2 :: rest.take k) .multi :: scanToksAux fuel (rest.drop k)
      | none => .code c1 :: scanToksAux fuel (c2 :: rest)
    else .code c1 :: scanToksAux fuel (c2 :: rest)

def scanToks (content : List Char) : List Tok := scanToksAux content.length content

/-- Spec-side description of the rewriting: code characters are kept verbatim
and each comment span becomes its placeholder text, the block counter
advancing on comments only. -/
def phRewrite (base : List Char) : Nat → List Tok → List Char
  | _, [] => []
  | ctr, .code c :: ts => c :: phRewrite base ctr ts
  | ctr, .comment _ .single :: ts =>
    str "//PLACEHOLDER_" ++ fmtIndex base ctr 1 ++ phRewrite base (ctr + 1) ts
  | ctr, .comment raw .multi :: ts =>
    multiPlaceholder (mkMultiSegs base ctr raw) ++ phRewrite base (ctr + 1) ts

/-- The import-then-reinsert phase of `main` (src lines 447-462) for an
already-detected format: a fatal parse aborts the run before any output file
is created; on success every intermediary content is rewritten. -/
def runImportPhase (esc : Bool) (fmt : TFormat) (lines : List (List Char))
    (blocks : List CommentBlock) (intermediaries : List (List Char)) :
    Option (List (List Char)) :=
  match parse_translated_comments fmt lines blocks with
  | .error _ => none
  | .ok tm => some (intermediaries.map (fun c => (reinsertContent esc tm c).1))

deriving instance DecidableEq for Except

theorem tab_not_mem_escape_tabs (s : List Char) : '\t' ∉ escape_tabs s := by
  induction s with
  | nil => simp [escape_tabs]
  | cons c rest ih =>
    by_cases h : c = '\t'
    · subst h
      simp [escape_tabs, ih]
    · simp [escape_tabs, h, ih]
      exact fun he => h he.symm

theorem tab_not_mem_joinSep (sep : List Char) (xs : List (List Char))
    (hsep : '\t' ∉ sep) (hxs : ∀ x ∈ xs, '\t' ∉ x) : '\t' ∉ joinSep sep xs := by
  induction xs with
  | nil => simp [joinSep]
  | cons x ys ih =>
    cases ys with
    | nil => simpa [joinSep] using hxs x (by simp)
    | cons y zs =>
      simp only [joinSep, List.append_assoc, List.mem_append]
      push_neg
      refine ⟨hxs x (by simp), hsep, ?_⟩
      exact ih (fun z hz => hxs z (by simp at hz ⊢; tauto))

theorem tab_not_mem_unlines (ls : List (List Char)) (h : ∀ l ∈ ls, '\t' ∉ l) :
    '\t' ∉ unlines ls := by
  intro hx
  rw [unlines, List.mem_flatten] at hx
  obtain ⟨piece, hp, hm⟩ := hx
  rw [List.mem_map] at hp
  obtain ⟨l, hl, rfl⟩ := hp
  rw [List.mem_append] at hm
  rcases hm with hm | hm
  · exact h l hl hm
  · simp at hm

/-- With escaping enabled the segmented export file contains no real tab,
provided no fragment index does. -/
theorem tab_not_mem_segmentedFile (blocks : List CommentBlock)
    (hidx : ∀ b ∈ blocks, ∀ p ∈ b.segments, '\t' ∉ p.1) :
    '\t' ∉ segmentedFile true blocks := by
  apply tab_not_mem_unlines
  intro l hl
  rw [segmentedLines, List.mem_flatMap] at hl
  obtain ⟨b, hb, hl⟩ := hl
  rw [List.mem_map] at hl
  obtain ⟨p, hp, rfl⟩ := hl
  intro hx
  rw [List.mem_append] at hx
  rcases hx with hx | hx
  · exact hidx b hb p hp hx
  · simp only [List.mem_cons] at hx
    rcases hx with hx | hx
    · exact absurd hx (by decide)
    · exact tab_not_mem_escape_tabs p.2 (by simpa [escIf] using hx)

/-- With escaping enabled the tsv export file contains no real tab at all:
line numbers are digits, the separator is the literal escape sequence, and
every fragment text is escaped. -/
theorem tab_not_mem_tsvFile (blocks : List CommentBlock) :
    '\t' ∉ tsvFile true blocks := by
  rw [tsvFile, tsvLines]
  generalize 1 = n
  induction blocks generalizing n with
  | nil => simp [tsvLinesFrom, unlines]
  | cons b bs ih =>
    rw [tsvLinesFrom]
    apply tab_not_mem_unlines
    intro l hl
    rw [List.mem_cons] at hl
    rcases hl with hl | hl
    · subst hl
      intro hx
      rw [List.mem_append] at hx
      rcases hx with hx | hx
      · exact pad_ne_tab 4 n '\t' hx rfl
      · simp only [List.mem_cons] at hx
        rcases hx with hx | hx
        · exact absurd hx (by decide)
        · refine absurd hx (tab_not_mem_joinSep _ _ (by decide) ?_)
          intro x hxm
          rw [List.mem_map] at hxm
          obtain ⟨p, _, rfl⟩ := hxm
          exact tab_not_mem_escape_tabs p.2
    · intro hx
      exact absurd (by
        rw [unlines, List.mem_flatten]
        exact ⟨l ++ ['\n'], List.mem_map_of_mem _ hl, by simp [hx]⟩) (ih (n + 1))

theorem mem_of_mem_dropWhile (p : Char → Bool) (l : List Char) (c : Char)
    (h : c ∈ l.dropWhile p) : c ∈ l := by
  induction l with
  | nil => simp at h
  | cons a rest ih =>
    by_cases ha : p a
    · rw [List.dropWhile_cons, if_pos ha] at h
      exact List.mem_cons_of_mem a (ih h)
    · rwa [List.dropWhile_cons, if_neg ha] at h

theorem mem_pyStrip (l : List Char) (c : Char) (h : c ∈ pyStrip l) : c ∈ l := by
  rw [pyStrip, List.mem_reverse] at h
  have h2 := mem_of_mem_dropWhile wsChar _ c h
  rw [List.mem_reverse] at h2
  exact mem_of_mem_dropWhile wsChar l c h2

/-- Claim C4, counterexample: the escape/unescape round trip is not the
identity on every string — a text already containing the literal
backslash-t sequence is untouched by escaping but collapsed to a real tab by
unescaping. -/
theorem claim_C4_counterexample :
    unescape_tabs (escape_tabs ['\\', 't']) ≠ ['\\', 't'] := by decide

/-- Claim C4, amended: for every string `t` that does not already contain the
two-character sequence backslash+t, `unescape_tabs (escape_tabs t) = t`; the
round trip may differ from the identity exactly on texts carrying that
literal sequence. -/
theorem claim_C4 (t : List Char) (h : hasBT t = false) :
    unescape_tabs (escape_tabs t) = t :=
  unescape_escape_of_no_bt t h

theorem claim_C4_witness :
    hasBT (str "a\tb\\nc") = false ∧
    unescape_tabs (escape_tabs (str "a\tb\\nc")) = str "a\tb\\nc" :=
  ⟨by decide, claim_C4 (str "a\tb\\nc") (by decide)⟩

/-- Claim C3, counterexample: with escaping enabled, a fragment text holding
a real tab is written escaped into the segmented and tsv files but raw into
the bulk file — so the tab is not replaced before being written to every one
of the three export files. -/
theorem claim_C3_counterexample :
    '\t' ∈ bulkFile [⟨str "f.cpp", 1, .single, [(str "f.cpp-001-01", ['a', '\t', 'b'])]⟩] ∧
    '\t' ∉ segmentedFile true
      [⟨str "f.cpp", 1, .single, [(str "f.cpp-001-01", ['a', '\t', 'b'])]⟩] ∧
    '\t' ∉ tsvFile true
      [⟨str "f.cpp", 1, .single, [(str "f.cpp-001-01", ['a', '\t', 'b'])]⟩] := by
  decide

/-- Claim C3, amended: with escaping enabled every real tab in a fragment
text is replaced by the two-character escape sequence before being written to
the segmented and tsv export files (so neither file contains a real tab
whenever no fragment index does); the bulk export writes fragment texts
unescaped. -/
theorem claim_C3 (blocks : List CommentBlock)
    (hidx : ∀ b ∈ blocks, ∀ p ∈ b.segments, '\t' ∉ p.1) :
    '\t' ∉ segmentedFile true blocks ∧ '\t' ∉ tsvFile true blocks :=
  ⟨tab_not_mem_segmentedFile blocks hidx, tab_not_mem_tsvFile blocks⟩

theorem claim_C3_witness :
    (∀ b ∈ [(⟨str "f.cpp", 1, .single,
        [(str "f.cpp-001-01", ['a', '\t', 'b'])]⟩ : CommentBlock)],
      ∀ p ∈ b.segments, '\t' ∉ p.1) ∧
    ('\t' ∉ segmentedFile true
        [⟨str "f.cpp", 1, .single, [(str "f.cpp-001-01", ['a', '\t', 'b'])]⟩] ∧
      '\t' ∉ tsvFile true
        [⟨str "f.cpp", 1, .single, [(str "f.cpp-001-01", ['a', '\t', 'b'])]⟩]) :=
  ⟨by decide, claim_C3 _ (by decide)⟩

/-- The one-block extraction used to settle claim C1. -/
def c1Block : CommentBlock :=
  ⟨str "f.cpp", 1, .single, [(str "f.cpp-001-01", str "hello")]⟩

/-- Claim C1, counterexample: for the single-block list extracted from
`// hello` (escaping enabled), running format detection and the import parser
on the three generated export files does not yield identical
TranslationMaps. -/
theorem claim_C1_counterexample :
    ¬ (importOutcome [c1Block] (segmentedFile true [c1Block])
        = importOutcome [c1Block] (tsvFile true [c1Block]) ∧
       importOutcome [c1Block] (tsvFile true [c1Block])
        = importOutcome [c1Block] (bulkFile [c1Block])) := by
  decide

/-- Claim C1, amended: the three exports of one extraction do not parse to
identical TranslationMaps. A tsv export produced with escaping enabled never
contains a real tab, so format detection never classifies it as tsv; for the
block list of `// hello` the segmented export parses by index, the tsv export
is detected as segmented and parses keyed by its 4-digit line number, and the
bulk export aborts fatally because its trailing blank line joins the final
group and breaks the per-block line count. -/
theorem claim_C1 :
    (∀ blocks : List CommentBlock,
      detect_translation_format (tsvFile true blocks) ≠ .tsv) ∧
    importOutcome [c1Block] (segmentedFile true [c1Block])
      = .ok [(str "f.cpp-001-01", str "hello")] ∧
    importOutcome [c1Block] (tsvFile true [c1Block])
      = .ok [(str "0001", str "hello")] ∧
    importOutcome [c1Block] (bulkFile [c1Block]) = .error () := by
  refine ⟨?_, rfl, rfl, rfl⟩
  intro blocks
  rw [detect_translation_format]
  have h2 : ¬ ('\t' ∈ pyStrip (tsvFile true blocks)) :=
    fun hm => tab_not_mem_tsvFile blocks (mem_pyStrip _ _ hm)
  by_cases h1 : containsSub (str "<||") (pyStrip (tsvFile true blocks)) = true
  · simp [h1]
  · simp [h1, h2]

theorem takeWhile_append_stop (i t : List Char) (h : ' ' ∉ i) :
    (i ++ ' ' :: t).takeWhile (fun c => c ≠ ' ') = i ∧
    (i ++ ' ' :: t).dropWhile (fun c => c ≠ ' ') = ' ' :: t := by
  induction i with
  | nil => simp [List.takeWhile, List.dropWhile]
  | cons a i' ih =>
    have ha : a ≠ ' ' := fun he => h (by simp [he])
    have := ih (fun hm => h (by simp [hm]))
    simp only [List.cons_append, List.takeWhile_cons, List.dropWhile_cons]
    rw [if_pos (by simpa using ha), if_pos (by simpa using ha)]
    exact ⟨by rw [this.1], this.2⟩

/-- Following the spec's words for the segmented import: each non-blank line
"splits on the first whitespace run into (index, text)" — the index is the
maximal leading run of non-whitespace, the text is everything after the first
whitespace run; a line without a two-part split of this shape is skipped with
a warning. Stated for comparison with the source's `parseSegmented`. -/
def wsRunSplit (l : List Char) : Option (List Char × List Char) :=
  let i := l.takeWhile (fun c => !wsChar c)
  let rest := l.dropWhile (fun c => !wsChar c)
  if i.isEmpty || rest.isEmpty then none
  else some (i, rest.dropWhile wsChar)

/-- The segmented import loop as the spec describes it (splitting on the
first whitespace run), for comparison with `parseSegmented`. -/
def parseSegmentedSpec : List (List Char) → TM → TM × List (List Char)
  | [], m => (m, [])
  | line :: rest, m =>
    if pyStrip line = [] then parseSegmentedSpec rest m
    else
      match wsRunSplit line with
      | none =>
        let p := parseSegmentedSpec rest m
        (p.1, line :: p.2)
      | some (i, t) => parseSegmentedSpec rest (tmInsert m i t)

/-- Claim C8, counterexample: the code splits a segmented line at its first
space character, not at its first whitespace run — on the tab-separated line
`a<TAB>b` the code warns and skips (the mapping lacks the index) while the
claimed whitespace-run split would record `a` to `b`. -/
theorem claim_C8_counterexample :
    parseSegmented [str "a\tb"] [] = ([], [str "a\tb"]) ∧
    parseSegmentedSpec [str "a\tb"] [] = ([(str "a", str "b")], []) ∧
    (parseSegmented [str "a\tb"] []).1 ≠ (parseSegmentedSpec [str "a\tb"] []).1 := by
  decide

/-- Claim C8, amended: the segmented import never fails fatally; each
non-blank line containing a space is split at its first space character into
an (index, text) pair added to the TranslationMap (the text keeps any further
whitespace); a non-blank line with no space at all — even one containing
other whitespace such as a tab — is skipped with a warning, the run
continues, and the mapping is left without that line's index. -/
theorem claim_C8 :
    (∀ lines blocks, ∃ m, parse_translated_comments .segmented lines blocks = .ok m) ∧
    (∀ line rest m, pyStrip line ≠ [] → ' ' ∉ line →
      parseSegmented (line :: rest) m
        = ((parseSegmented rest m).1, line :: (parseSegmented rest m).2)) ∧
    (∀ i t rest m, ' ' ∉ i → pyStrip (i ++ ' ' :: t) ≠ [] →
      parseSegmented ((i ++ ' ' :: t) :: rest) m = parseSegmented rest (tmInsert m i t)) := by
  refine ⟨fun lines blocks => ⟨(parseSegmented lines []).1, rfl⟩, ?_, ?_⟩
  · intro line rest m hnb hns
    rw [parseSegmented, if_neg hnb]
    have : firstSpaceSplit line = none := by
      rw [firstSpaceSplit, if_neg hns]
    rw [this]
  · intro i t rest m hi hnb
    rw [parseSegmented, if_neg hnb]
    have hsp := takeWhile_append_stop i t hi
    have : firstSpaceSplit (i ++ ' ' :: t) = some (i, t) := by
      rw [firstSpaceSplit, if_pos (by simp), hsp.1, hsp.2]
      simp
    rw [this]

theorem claim_C8_witness :
    (∃ m, parse_translated_comments .segmented [str "x y"] [] = .ok m) ∧
    ((str "a\tb").isEmpty = false ∧ pyStrip (str "a\tb") ≠ [] ∧ ' ' ∉ str "a\tb" ∧
      parseSegmented [str "a\tb"] []
        = ((parseSegmented [] []).1, str "a\tb" :: (parseSegmented [] []).2)) ∧
    (' ' ∉ str "idx" ∧ pyStrip (str "idx" ++ ' ' :: str "text") ≠ [] ∧
      parseSegmented [str "idx" ++ ' ' :: str "text"] []
        = parseSegmented [] (tmInsert [] (str "idx") (str "text"))) := by
  refine ⟨claim_C8.1 [str "x y"] [], ⟨by decide, by decide, by decide, ?_⟩,
    ⟨by decide, by decide, ?_⟩⟩
  · exact claim_C8.2.1 (str "a\tb") [] [] (by decide) (by decide)
  · exact claim_C8.2.2 (str "idx") (str "text") [] [] (by decide) (by decide)

theorem containsSub_cons_false (p : List Char) (c : Char) (r : List Char)
    (h : containsSub p (c :: r) = false) :
    p.isPrefixOf (c :: r) = false ∧ containsSub p r = false := by
  rw [containsSub, Bool.or_eq_false_iff] at h
  exact h

theorem findCloseLen_none_of_no_close (l : List Char)
    (h : containsSub (str "*/") l = false) : findCloseLen l = none := by
  induction l with
  | nil => rfl
  | cons c1 l1 ih =>
    cases l1 with
    | nil => rfl
    | cons c2 rest =>
      have h' := containsSub_cons_false _ _ _ h
      have hne : ¬ (c1 = '*' ∧ c2 = '/') := by
        intro hx
        rw [hx.1, hx.2] at h'
        simp [List.isPrefixOf, str] at h'
      rw [findCloseLen, if_neg hne, ih h'.2]
      rfl

/-- Inside content with no single-line marker and no close delimiter, the
scan matches nothing: the content is returned unchanged with no blocks. -/
theorem extract_go_no_comments (file base : List Char) :
    ∀ fuel ctr : Nat, ∀ l : List Char, l.length ≤ fuel →
    containsSub (str "//") l = false → containsSub (str "*/") l = false →
    extract_go file base fuel ctr l = (l, []) := by
  intro fuel
  induction fuel with
  | zero => intro ctr l _ _ _; rfl
  | succ g ih =>
    intro ctr l hlen h1 h2
    cases l with
    | nil => rfl
    | cons c1 l1 =>
      cases l1 with
      | nil => rfl
      | cons c2 rest =>
        have h1' := containsSub_cons_false _ _ _ h1
        have h2' := containsSub_cons_false _ _ _ h2
        have hslash : ¬ (c1 = '/' ∧ c2 = '/') := by
          intro hx
          rw [hx.1, hx.2] at h1'
          simp [List.isPrefixOf, str] at h1'
        have htail := ih ctr (c2 :: rest) (by simpa using Nat.le_of_succ_le_succ hlen)
          h1'.2 h2'.2
        by_cases hm : c1 = '/' ∧ c2 = '*'
        · have hnone : findCloseLen rest = none :=
            findCloseLen_none_of_no_close rest (containsSub_cons_false _ _ _ h2'.2).2
          rw [extract_go, if_neg hslash, if_pos hm, hnone]
          simp [htail]
        · rw [extract_go, if_neg hslash, if_neg hm]
          simp [htail]

/-- Claim C10: an input containing an opening block-comment delimiter but no
closing delimiter and no single-line marker is returned completely unchanged
with an empty block list — the unterminated block comment is not a comment. -/
theorem claim_C10 (content filename : List Char)
    (hopen : containsSub (str "/*") content = true)
    (hclose : containsSub (str "*/") content = false)
    (hslash : containsSub (str "//") content = false) :
    extract_comments_from_content content filename = (content, []) :=
  extract_go_no_comments filename (basename filename) content.length 1 content
    (Nat.le_refl _) hslash hclose

theorem claim_C10_witness :
    containsSub (str "/*") (str "int x; /* open") = true ∧
    containsSub (str "*/") (str "int x; /* open") = false ∧
    containsSub (str "//") (str "int x; /* open") = false ∧
    extract_comments_from_content (str "int x; /* open") (str "x.cpp")
      = (str "int x; /* open", []) :=
  ⟨by decide, by decide, by decide,
    claim_C10 (str "int x; /* open") (str "x.cpp") (by decide) (by decide) (by decide)⟩

theorem buildSegs_nil_of_blank (base : List Char) (bid : Nat) :
    ∀ ls : List (List Char), ∀ k : Nat, (∀ l ∈ ls, pyStrip l = []) →
    buildSegs base bid k ls = [] := by
  intro ls
  induction ls with
  | nil => intro k _; rfl
  | cons line rest ih =>
    intro k h
    rw [buildSegs]
    simp only [h line (by simp), if_pos rfl]
    exact ih k (fun l hl => h l (by simp [hl]))

theorem mkMultiSegs_ne_nil (base : List Char) (bid : Nat) (raw : List Char) :
    mkMultiSegs base bid raw ≠ [] := by
  rw [mkMultiSegs]
  by_cases h : buildSegs base bid 1 ((splitLines (multiInner raw)).map cleanLine) = []
  · simp [h]
  · simp [h]

theorem extract_go_blocks_nonempty (file base : List Char) :
    ∀ fuel ctr : Nat, ∀ l : List Char,
    ∀ b ∈ (extract_go file base fuel ctr l).2, b.segments ≠ [] := by
  intro fuel
  induction fuel with
  | zero => intro ctr l b hb; simp [extract_go] at hb
  | succ g ih =>
    intro ctr l b hb
    cases l with
    | nil => simp [extract_go] at hb
    | cons c1 l1 =>
      cases l1 with
      | nil => simp [extract_go] at hb
      | cons c2 rest =>
        by_cases hs : c1 = '/' ∧ c2 = '/'
        · rw [extract_go, if_pos hs] at hb
          simp only [List.mem_cons] at hb
          rcases hb with hb | hb
          · subst hb; simp
          · exact ih (ctr + 1) (rest.dropWhile (fun c => c ≠ '\n')) b hb
        · by_cases hm : c1 = '/' ∧ c2 = '*'
          · rw [extract_go, if_neg hs, if_pos hm] at hb
            cases hk : findCloseLen rest with
            | some k =>
              rw [hk] at hb
              simp only [List.mem_cons] at hb
              rcases hb with hb | hb
              · subst hb
                exact mkMultiSegs_ne_nil base ctr (c1 :: c2 :: rest.take k)
              · exact ih (ctr + 1) (rest.drop k) b hb
            | none =>
              rw [hk] at hb
              exact ih ctr (c2 :: rest) b hb
          · rw [extract_go, if_neg hs, if_neg hm] at hb
            exact ih ctr (c2 :: rest) b hb

/-- Claim C7: a multi-line comment whose interior lines are all blank or
whitespace-only after asterisk-prefix stripping produces exactly one segment
with empty text (never zero), and consequently every CommentBlock produced by
extraction has at least one segment. -/
theorem claim_C7 :
    (∀ base : List Char, ∀ bid : Nat, ∀ raw : List Char,
      (∀ l ∈ splitLines (multiInner raw), pyStrip (cleanLine l) = []) →
      mkMultiSegs base bid raw = [(fmtIndex base bid 1, [])]) ∧
    (∀ content filename : List Char,
      ∀ b ∈ (extract_comments_from_content content filename).2, b.segments ≠ []) := by
  constructor
  · intro base bid raw h
    rw [mkMultiSegs]
    have : buildSegs base bid 1 ((splitLines (multiInner raw)).map cleanLine) = [] := by
      apply buildSegs_nil_of_blank
      intro l hl
      rw [List.mem_map] at hl
      obtain ⟨l0, hl0, rfl⟩ := hl
      exact h l0 hl0
    simp [this]
  · intro content filename
    exact extract_go_blocks_nonempty filename (basename filename) content.length 1 content

theorem claim_C7_witness :
    (∀ l ∈ splitLines (multiInner (str "/*  \n\t * \t\n */")), pyStrip (cleanLine l) = []) ∧
    mkMultiSegs (str "f.cpp") 1 (str "/*  \n\t * \t\n */") = [(str "f.cpp-001-01", [])] ∧
    ((⟨str "f.cpp", 1, .multi, [(str "f.cpp-001-01", [])]⟩ : CommentBlock)
        ∈ (extract_comments_from_content (str "/*  \n\t * \t\n */") (str "f.cpp")).2 ∧
      (⟨str "f.cpp", 1, .multi, [(str "f.cpp-001-01", [])]⟩ : CommentBlock).segments ≠ []) :=
  ⟨by decide, claim_C7.1 (str "f.cpp") 1 (str "/*  \n\t * \t\n */") (by decide),
    by decide,
    claim_C7.2 (str "/*  \n\t * \t\n */") (str "f.cpp") _ (by decide)⟩

/-- The comment scanner tiles the input exactly: concatenating the matched
spans and the untouched characters, in order, reproduces the content. -/
theorem scanToksAux_join (fuel : Nat) :
    ∀ l : List Char, l.length ≤ fuel → (scanToksAux fuel l).flatMap tokText = l := by
  induction fuel with
  | zero =>
    intro l hlen
    have : l = [] := by cases l with | nil => rfl | cons => simp at hlen
    subst this
    rfl
  | succ g ih =>
    intro l hlen
    cases l with
    | nil => rfl
    | cons c1 l1 =>
      cases l1 with
      | nil => rfl
      | cons c2 rest =>
        have hr : rest.length + 2 ≤ g + 1 := by simpa using hlen
        by_cases hs : c1 = '/' ∧ c2 = '/'
        · rw [scanToksAux, if_pos hs]
          rw [List.flatMap_cons, tokText,
            ih (rest.dropWhile (fun c => c ≠ '\n'))
              (by have := length_dropWhile_le' (fun c => c ≠ '\n') rest; omega)]
          simp [List.takeWhile_append_dropWhile]
        · by_cases hm : c1 = '/' ∧ c2 = '*'
          · rw [scanToksAux, if_neg hs, if_pos hm]
            cases hk : findCloseLen rest with
            | some k =>
              rw [List.flatMap_cons, tokText,
                ih (rest.drop k) (by simp [List.length_drop]; omega)]
              simp [List.take_append_drop]
            | none =>
              rw [List.flatMap_cons, tokText,
                ih (c2 :: rest) (by simp; omega)]
              rfl
          · rw [scanToksAux, if_neg hs, if_neg hm, List.flatMap_cons, tokText,
              ih (c2 :: rest) (by simp; omega)]
            rfl

/-- The rewritten content is the token stream with code characters kept
verbatim and comment spans replaced by their placeholders. -/
theorem extract_go_rewrite (file base : List Char) (fuel : Nat) :
    ∀ ctr : Nat, ∀ l : List Char, l.length ≤ fuel →
    (extract_go file base fuel ctr l).1 = phRewrite base ctr (scanToksAux fuel l) := by
  induction fuel with
  | zero =>
    intro ctr l hlen
    have : l = [] := by cases l with | nil => rfl | cons => simp at hlen
    subst this
    rfl
  | succ g ih =>
    intro ctr l hlen
    cases l with
    | nil => rfl
    | cons c1 l1 =>
      cases l1 with
      | nil => rfl
      | cons c2 rest =>
        have hr : rest.length + 2 ≤ g + 1 := by simpa using hlen
        by_cases hs : c1 = '/' ∧ c2 = '/'
        · rw [extract_go, if_pos hs, scanToksAux, if_pos hs, phRewrite]
          dsimp only
          rw [ih (ctr + 1) (rest.dropWhile (fun c => c ≠ '\n'))
            (by have := length_dropWhile_le' (fun c => c ≠ '\n') rest; omega)]
        · by_cases hm : c1 = '/' ∧ c2 = '*'
          · rw [extract_go, if_neg hs, if_pos hm, scanToksAux, if_neg hs, if_pos hm]
            cases hk : findCloseLen rest with
            | some k =>
              dsimp only
              rw [phRewrite]
              rw [ih (ctr + 1) (rest.drop k) (by simp [List.length_drop]; omega)]
            | none =>
              dsimp only
              rw [phRewrite]
              rw [ih ctr (c2 :: rest) (by simp; omega)]
          · rw [extract_go, if_neg hs, if_neg hm, scanToksAux, if_neg hs, if_neg hm,
              phRewrite]
            dsimp only
            rw [ih ctr (c2 :: rest) (by simp; omega)]

/-- Claim C6: the comment spans found by the scan tile the original content
exactly, and the rewritten text keeps every character outside those spans
verbatim, replacing only the spans themselves by their placeholder texts. -/
theorem claim_C6 (content filename : List Char) :
    (scanToks content).flatMap tokText = content ∧
    (extract_comments_from_content content filename).1
      = phRewrite (basename filename) 1 (scanToks content) :=
  ⟨scanToksAux_join content.length content (Nat.le_refl _),
    extract_go_rewrite filename (basename filename) content.length 1 content (Nat.le_refl _)⟩

theorem isPrefixOf_append_drop (p : List Char) :
    ∀ l : List Char, p.isPrefixOf l = true → p ++ l.drop p.length = l := by
  induction p with
  | nil => intro l _; simp
  | cons a p' ih =>
    intro l h
    cases l with
    | nil => simp [List.isPrefixOf] at h
    | cons b l' =>
      rw [List.isPrefixOf] at h
      simp only [Bool.and_eq_true, beq_iff_eq] at h
      simp only [List.length_cons, List.drop_succ_cons, List.cons_append, h.1]
      rw [ih l' h.2]

theorem isPrefixOf_length_le (p l : List Char) (h : p.isPrefixOf l = true) :
    p.length ≤ l.length := by
  have := congrArg List.length (isPrefixOf_append_drop p l h)
  simp only [List.length_append] at this
  omega

/-- Spec-side substitution of one placeholder token: a mapped placeholder
becomes its (possibly unescaped) translation, an unmapped one stays verbatim,
a plain character stays itself. -/
def substPT (esc : Bool) (tm : TM) : PTok → List Char
  | .raw c => [c]
  | .ph m =>
    match tmLookup tm (pyStrip (stripPH m)) with
    | some t => if esc then unescape_tabs t else t
    | none => m

/-- Spec-side warning of one placeholder token: an unmapped placeholder
yields its index, everything else nothing. -/
def warnPT (tm : TM) : PTok → Option (List Char)
  | .raw _ => none
  | .ph m =>
    match tmLookup tm (pyStrip (stripPH m)) with
    | some _ => none
    | none => some (pyStrip (stripPH m))

theorem reinsertAux_phToksAux (esc : Bool) (tm : TM) (fuel : Nat) :
    ∀ l : List Char, l.length ≤ fuel →
    ((phToksAux fuel l).flatMap ptText = l) ∧
    ((reinsertAux esc tm fuel l).1 = (phToksAux fuel l).flatMap (substPT esc tm)) ∧
    ((reinsertAux esc tm fuel l).2 = (phToksAux fuel l).filterMap (warnPT tm)) := by
  induction fuel with
  | zero =>
    intro l hlen
    have : l = [] := by cases l with | nil => rfl | cons => simp at hlen
    subst this
    exact ⟨rfl, rfl, rfl⟩
  | succ g ih =>
    intro l hlen
    cases l with
    | nil => exact ⟨rfl, rfl, rfl⟩
    | cons c rest =>
      by_cases hcond : (str "PLACEHOLDER_").isPrefixOf (c :: rest) = true ∧
          ((c :: rest).drop 12).takeWhile phChar ≠ []
      · have hplen : (str "PLACEHOLDER_").length = 12 := rfl
        have hlen12 : 12 ≤ (c :: rest).length := by
          have h := isPrefixOf_length_le (str "PLACEHOLDER_") (c :: rest) hcond.1
          rwa [hplen] at h
        have hafter : (((c :: rest).drop 12).dropWhile phChar).length ≤ g := by
          have h1 := length_dropWhile_le' phChar ((c :: rest).drop 12)
          rw [List.length_drop] at h1
          omega
        obtain ⟨ihj, ihs, ihw⟩ := ih _ hafter
        rw [reinsertAux, if_pos hcond, phToksAux, if_pos hcond]
        dsimp only
        refine ⟨?_, ?_, ?_⟩
        · rw [List.flatMap_cons, ptText, ihj, List.append_assoc,
            List.takeWhile_append_dropWhile]
          exact isPrefixOf_append_drop (str "PLACEHOLDER_") (c :: rest) hcond.1
        · cases hlk : tmLookup tm (pyStrip (stripPH
              (str "PLACEHOLDER_" ++ ((c :: rest).drop 12).takeWhile phChar))) with
          | some t =>
            rw [List.flatMap_cons]
            show (if esc then unescape_tabs t else t)
                ++ (reinsertAux esc tm g (((c :: rest).drop 12).dropWhile phChar)).1 = _
            rw [ihs, substPT, hlk]
          | none =>
            rw [List.flatMap_cons]
            show (str "PLACEHOLDER_" ++ ((c :: rest).drop 12).takeWhile phChar)
                ++ (reinsertAux esc tm g (((c :: rest).drop 12).dropWhile phChar)).1 = _
            rw [ihs, substPT, hlk]
        · cases hlk : tmLookup tm (pyStrip (stripPH
              (str "PLACEHOLDER_" ++ ((c :: rest).drop 12).takeWhile phChar))) with
          | some t =>
            rw [List.filterMap_cons]
            show (reinsertAux esc tm g (((c :: rest).drop 12).dropWhile phChar)).2 = _
            rw [ihw, warnPT, hlk]
          | none =>
            rw [List.filterMap_cons]
            show pyStrip (stripPH (str "PLACEHOLDER_"
                  ++ ((c :: rest).drop 12).takeWhile phChar))
                :: (reinsertAux esc tm g (((c :: rest).drop 12).dropWhile phChar)).2 = _
            rw [ihw, warnPT, hlk]
      · obtain ⟨ihj, ihs, ihw⟩ := ih rest (by simp at hlen ⊢; omega)
        rw [reinsertAux, if_neg hcond, phToksAux, if_neg hcond]
        dsimp only
        refine ⟨?_, ?_, ?_⟩
        · rw [List.flatMap_cons, ptText, ihj]
          rfl
        · rw [List.flatMap_cons, substPT, ihs]
          rfl
        · rw [List.filterMap_cons, warnPT, ihw]

/-- Claim C9: the reinsertion pass tiles the placeholder-bearing content into
plain characters and placeholder matches; every matched placeholder whose
index is absent from the TranslationMap is kept verbatim in place in the
output, and contributes exactly one warning (in scan order); mapped matches
are substituted; the pass is a total function — the run never aborts. -/
theorem claim_C9 (esc : Bool) (tm : TM) (content : List Char) :
    (phToks content).flatMap ptText = content ∧
    (reinsertContent esc tm content).1 = (phToks content).flatMap (substPT esc tm) ∧
    (reinsertContent esc tm content).2 = (phToks content).filterMap (warnPT tm) :=
  reinsertAux_phToksAux esc tm content.length content (Nat.le_refl _)

/-- All fragment indices of a block list, in generation order. -/
def allIndices (blocks : List CommentBlock) : List (List Char) :=
  blocks.flatMap (fun b => b.segments.map Prod.fst)

theorem tmLookup_tmInsert_self (m : TM) (k v : List Char) :
    tmLookup (tmInsert m k v) k = some v := by
  induction m with
  | nil => simp [tmInsert, tmLookup]
  | cons p rest ih =>
    by_cases h : p.1 = k
    · simp [tmInsert, tmLookup, h]
    · simp [tmInsert, tmLookup, h, ih]

theorem tmLookup_tmInsert_ne (m : TM) (k v k' : List Char) (h : k' ≠ k) :
    tmLookup (tmInsert m k v) k' = tmLookup m k' := by
  have h' : k ≠ k' := Ne.symm h
  induction m with
  | nil => simp [tmInsert, tmLookup, h']
  | cons p rest ih =>
    by_cases hp : p.1 = k
    · simp [tmInsert, tmLookup, hp, h']
    · simp [tmInsert, tmLookup, hp, ih]

theorem insertSegs_lookup_of_not_mem :
    ∀ ss : List (List Char × List Char), ∀ ts : List (List Char), ∀ m : TM,
    ∀ k : List Char, k ∉ ss.map Prod.fst →
    tmLookup (insertSegs m ss ts) k = tmLookup m k := by
  intro ss
  induction ss with
  | nil => intro ts m k _; cases ts <;> rfl
  | cons p ss' ih =>
    intro ts m k hk
    cases ts with
    | nil => rfl
    | cons t ts' =>
      rw [insertSegs, ih ts' _ k (fun hm => hk (by simp [hm]))]
      exact tmLookup_tmInsert_ne m p.1 t k (fun he => hk (by simp [he]))

theorem insertSegs_lookup_pos :
    ∀ ss : List (List Char × List Char), ∀ ts : List (List Char), ∀ m : TM,
    ss.length = ts.length → (ss.map Prod.fst).Nodup →
    ∀ j : Nat, ∀ hj : j < ss.length, ∀ hj2 : j < ts.length,
    tmLookup (insertSegs m ss ts) (ss.get ⟨j, hj⟩).1 = some (ts.get ⟨j, hj2⟩) := by
  intro ss
  induction ss with
  | nil => intro ts m _ _ j hj; simp at hj
  | cons p ss' ih =>
    intro ts m hlen hnd j hj hj2
    cases ts with
    | nil => simp at hlen
    | cons t ts' =>
      rw [List.map_cons, List.nodup_cons] at hnd
      cases j with
      | zero =>
        show tmLookup (insertSegs (tmInsert m p.1 t) ss' ts') p.1 = some t
        rw [insertSegs_lookup_of_not_mem ss' ts' _ p.1 hnd.1]
        exact tmLookup_tmInsert_self m p.1 t
      | succ i =>
        show tmLookup (insertSegs (tmInsert m p.1 t) ss' ts') (ss'.get ⟨i, _⟩).1
          = some (ts'.get ⟨i, _⟩)
        exact ih ts' (tmInsert m p.1 t) (by simpa using hlen) hnd.2 i
          (by simpa using hj) (by simpa using hj2)

theorem parseTsvGo_ok_counts :
    ∀ pairs : List (CommentBlock × List Char), ∀ m m' : TM,
    parseTsvGo pairs m = .ok m' →
    ∀ pr ∈ pairs, (splitBT (pr.2.drop 5)).length = pr.1.segments.length := by
  intro pairs
  induction pairs with
  | nil => intro m m' _ pr hpr; simp at hpr
  | cons q rest ih =>
    intro m m' hok pr hpr
    rw [parseTsvGo] at hok
    by_cases hc : (splitBT (q.2.drop 5)).length ≠ q.1.segments.length
    · rw [if_pos hc] at hok; exact absurd hok (by simp)
    · rw [if_neg hc] at hok
      rcases List.mem_cons.mp hpr with hpr | hpr
      · subst hpr; omega
      · exact ih _ m' hok pr hpr

theorem parseTsvGo_lookup_of_not_mem :
    ∀ pairs : List (CommentBlock × List Char), ∀ m m' : TM, ∀ k : List Char,
    parseTsvGo pairs m = .ok m' →
    k ∉ pairs.flatMap (fun pr => pr.1.segments.map Prod.fst) →
    tmLookup m' k = tmLookup m k := by
  intro pairs
  induction pairs with
  | nil =>
    intro m m' k hok _
    have hm : m = m' := Except.ok.inj hok
    rw [hm]
  | cons q rest ih =>
    intro m m' k hok hk
    rw [parseTsvGo] at hok
    by_cases hc : (splitBT (q.2.drop 5)).length ≠ q.1.segments.length
    · rw [if_pos hc] at hok; exact absurd hok (by simp)
    · rw [if_neg hc] at hok
      rw [List.flatMap_cons, List.mem_append] at hk
      push_neg at hk
      rw [ih _ m' k hok hk.2]
      exact insertSegs_lookup_of_not_mem q.1.segments _ m k hk.1

theorem parseTsvGo_lookup_pos :
    ∀ blocks : List CommentBlock, ∀ lines : List (List Char), ∀ m m' : TM,
    blocks.length = lines.length →
    parseTsvGo (blocks.zip lines) m = .ok m' →
    ((blocks.zip lines).flatMap (fun pr => pr.1.segments.map Prod.fst)).Nodup →
    ∀ i : Nat, ∀ hi : i < blocks.length, ∀ hli : i < lines.length,
    ∀ j : Nat, ∀ hj : j < (blocks.get ⟨i, hi⟩).segments.length,
    ∀ hj2 : j < (splitBT ((lines.get ⟨i, hli⟩).drop 5)).length,
    tmLookup m' ((blocks.get ⟨i, hi⟩).segments.get ⟨j, hj⟩).1
      = some ((splitBT ((lines.get ⟨i, hli⟩).drop 5)).get ⟨j, hj2⟩) := by
  intro blocks
  induction blocks with
  | nil => intro lines m m' _ _ _ i hi; simp at hi
  | cons b bs ih =>
    intro lines m m' hlen hok hnd i hi hli j hj hj2
    cases lines with
    | nil => simp at hlen
    | cons line ls =>
      rw [List.zip_cons_cons] at hok hnd
      rw [parseTsvGo] at hok
      by_cases hc : (splitBT (line.drop 5)).length ≠ b.segments.length
      · rw [if_pos hc] at hok; exact absurd hok (by simp)
      · rw [if_neg hc] at hok
        rw [List.flatMap_cons, List.nodup_append] at hnd
        cases i with
        | zero =>
          have hkmem : (b.segments.get ⟨j, hj⟩).1 ∈ b.segments.map Prod.fst := by
            exact List.mem_map_of_mem Prod.fst (b.segments.get_mem j hj)
          have hknot : (b.segments.get ⟨j, hj⟩).1
              ∉ (bs.zip ls).flatMap (fun pr => pr.1.segments.map Prod.fst) :=
            fun hm => hnd.2.2 hkmem hm
          show tmLookup m' (b.segments.get ⟨j, hj⟩).1
            = some ((splitBT (line.drop 5)).get ⟨j, hj2⟩)
          rw [parseTsvGo_lookup_of_not_mem _ _ m' _ hok hknot]
          exact insertSegs_lookup_pos b.segments (splitBT (line.drop 5)) m
            (by omega) hnd.1 j hj hj2
        | succ i' =>
          exact ih ls _ m' (by simpa using hlen) hok hnd.2.1 i'
            (by simpa using hi) (by simpa using hli) j hj hj2

theorem zip_get_mem {A B : Type} : ∀ as_ : List A, ∀ bs : List B, ∀ i : Nat,
    ∀ hia : i < as_.length, ∀ hib : i < bs.length,
    (as_.get ⟨i, hia⟩, bs.get ⟨i, hib⟩) ∈ as_.zip bs := by
  intro as_
  induction as_ with
  | nil => intro bs i hia; simp at hia
  | cons a as' ih =>
    intro bs i hia hib
    cases bs with
    | nil => simp at hib
    | cons b bs' =>
      cases i with
      | zero => simp [List.zip_cons_cons]
      | succ i' =>
        rw [List.zip_cons_cons]
        exact List.mem_cons_of_mem _ (ih bs' i' (by simpa using hia) (by simpa using hib))

theorem flat_idx_zip : ∀ blocks : List CommentBlock, ∀ lines : List (List Char),
    blocks.length = lines.length →
    (blocks.zip lines).flatMap (fun pr => pr.1.segments.map Prod.fst)
      = allIndices blocks := by
  intro blocks
  induction blocks with
  | nil => intro lines _; rfl
  | cons b bs ih =>
    intro lines hlen
    cases lines with
    | nil => simp at hlen
    | cons line ls =>
      rw [List.zip_cons_cons, List.flatMap_cons]
      show _ = b.segments.map Prod.fst ++ allIndices bs
      rw [ih ls (by simpa using hlen)]

/-- Claim C5: for tsv import, a line-count mismatch against the block count,
or a per-block segment-count mismatch after stripping the five-character
prefix and splitting on the literal escape sequence, makes the whole run
abort fatally with no output files; otherwise (with pairwise-distinct
fragment indices) every fragment index is mapped to its positional
segment. -/
theorem claim_C5 (lines : List (List Char)) (blocks : List CommentBlock)
    (intermediaries : List (List Char)) (esc : Bool) :
    (lines.length ≠ blocks.length →
      parse_translated_comments .tsv lines blocks = .error () ∧
      runImportPhase esc .tsv lines blocks intermediaries = none) ∧
    (∀ i : Nat, ∀ hi : i < blocks.length, ∀ hli : i < lines.length,
      (splitBT ((lines.get ⟨i, hli⟩).drop 5)).length
          ≠ (blocks.get ⟨i, hi⟩).segments.length →
      parse_translated_comments .tsv lines blocks = .error () ∧
      runImportPhase esc .tsv lines blocks intermediaries = none) ∧
    ((allIndices blocks).Nodup →
      ∀ m : TM, parse_translated_comments .tsv lines blocks = .ok m →
      ∀ i : Nat, ∀ hi : i < blocks.length, ∀ hli : i < lines.length,
      ∀ j : Nat, ∀ hj : j < (blocks.get ⟨i, hi⟩).segments.length,
      ∀ hj2 : j < (splitBT ((lines.get ⟨i, hli⟩).drop 5)).length,
      tmLookup m ((blocks.get ⟨i, hi⟩).segments.get ⟨j, hj⟩).1
        = some ((splitBT ((lines.get ⟨i, hli⟩).drop 5)).get ⟨j, hj2⟩)) := by
  refine ⟨?_, ?_, ?_⟩
  · intro hne
    have hp : parse_translated_comments .tsv lines blocks = .error () := by
      rw [parse_translated_comments, parseTsv, if_pos hne]
    refine ⟨hp, ?_⟩
    rw [runImportPhase, hp]
  · intro i hi hli hmis
    have herr : parse_translated_comments .tsv lines blocks = .error () := by
      by_cases hlen : lines.length = blocks.length
      · cases hres : parseTsvGo (blocks.zip lines) [] with
        | ok mm =>
          exfalso
          exact hmis (parseTsvGo_ok_counts (blocks.zip lines) [] mm hres
            (blocks.get ⟨i, hi⟩, lines.get ⟨i, hli⟩)
            (zip_get_mem blocks lines i hi hli))
        | error e =>
          cases e
          rw [parse_translated_comments, parseTsv, if_neg (by omega)]
          exact hres
      · rw [parse_translated_comments, parseTsv, if_pos hlen]
    refine ⟨herr, ?_⟩
    rw [runImportPhase, herr]
  · intro hnd m hok i hi hli j hj hj2
    have hlen : lines.length = blocks.length := by
      by_contra hne
      rw [parse_translated_comments, parseTsv, if_pos hne] at hok
      exact absurd hok (by simp)
    rw [parse_translated_comments, parseTsv, if_neg (by omega)] at hok
    refine parseTsvGo_lookup_pos blocks lines [] m (by omega) hok ?_ i hi hli j hj hj2
    rw [flat_idx_zip blocks lines (by omega)]
    exact hnd

theorem claim_C5_witness :
    (allIndices [⟨str "f.cpp", 1, .single, [(str "f.cpp-001-01", str "hi")]⟩]).Nodup ∧
    parse_translated_comments .tsv [str "0001 hi"]
        [⟨str "f.cpp", 1, .single, [(str "f.cpp-001-01", str "hi")]⟩]
      = .ok [(str "f.cpp-001-01", str "hi")] ∧
    tmLookup [(str "f.cpp-001-01", str "hi")] (str "f.cpp-001-01") = some (str "hi") :=
  ⟨by decide, rfl,
    (claim_C5 [str "0001 hi"]
        [⟨str "f.cpp", 1, .single, [(str "f.cpp-001-01", str "hi")]⟩] [] true).2.2
      (by decide) [(str "f.cpp-001-01", str "hi")] rfl
      0 (by decide) (by decide) 0 (by decide) (by decide)⟩

/-- The extraction loop of `main` over a file list (src lines 426-436):
per-file blocks accumulate across files in order. Each entry is
`(filename, content)`. -/
def runExtract (files : List (List Char × List Char)) : List CommentBlock :=
  files.flatMap (fun fc => (extract_comments_from_content fc.2 fc.1).2)

theorem buildSegs_idx (base : List Char) (bid : Nat) :
    ∀ ls : List (List Char), ∀ k : Nat, ∃ ns : List Nat,
    (buildSegs base bid k ls).map Prod.fst = ns.map (fmtIndex base bid) ∧
    ns.Nodup ∧ ∀ n ∈ ns, k ≤ n := by
  intro ls
  induction ls with
  | nil => intro k; exact ⟨[], rfl, by simp, by simp⟩
  | cons line rest ih =>
    intro k
    rw [buildSegs]
    by_cases hs : pyStrip line = []
    · rw [if_pos hs]
      exact ih k
    · rw [if_neg hs]
      obtain ⟨ns', h1, h2, h3⟩ := ih (k + 1)
      refine ⟨k :: ns', ?_, ?_, ?_⟩
      · rw [List.map_cons, List.map_cons, h1]
      · rw [List.nodup_cons]
        exact ⟨fun hm => by have := h3 k hm; omega, h2⟩
      · intro n hn
        rcases List.mem_cons.mp hn with hn | hn
        · omega
        · have := h3 n hn; omega

theorem mkMultiSegs_idx (base : List Char) (bid : Nat) (raw : List Char) :
    ∃ ns : List Nat, (mkMultiSegs base bid raw).map Prod.fst
      = ns.map (fmtIndex base bid) ∧ ns.Nodup := by
  rw [mkMultiSegs]
  by_cases h : buildSegs base bid 1 ((splitLines (multiInner raw)).map cleanLine) = []
  · rw [if_pos h]
    exact ⟨[1], rfl, by simp⟩
  · rw [if_neg h]
    obtain ⟨ns, h1, h2, _⟩ := buildSegs_idx base bid
      ((splitLines (multiInner raw)).map cleanLine) 1
    exact ⟨ns, h1, h2⟩

theorem extract_go_inv (file base : List Char) :
    ∀ fuel ctr : Nat, ∀ l : List Char,
    (∀ b ∈ (extract_go file base fuel ctr l).2, ctr ≤ b.block_id ∧
      ∃ ns : List Nat, b.segments.map Prod.fst = ns.map (fmtIndex base b.block_id) ∧
        ns.Nodup) ∧
    (extract_go file base fuel ctr l).2.Pairwise
      (fun b b' => b.block_id < b'.block_id) := by
  intro fuel
  induction fuel with
  | zero => intro ctr l; constructor
            · intro b hb; simp [extract_go] at hb
            · simp [extract_go]
  | succ g ih =>
    intro ctr l
    cases l with
    | nil => constructor
             · intro b hb; simp [extract_go] at hb
             · simp [extract_go]
    | cons c1 l1 =>
      cases l1 with
      | nil => constructor
               · intro b hb; simp [extract_go] at hb
               · simp [extract_go]
      | cons c2 rest =>
        by_cases hs : c1 = '/' ∧ c2 = '/'
        · rw [extract_go, if_pos hs]
          dsimp only
          obtain ⟨ihm, ihp⟩ := ih (ctr + 1) (rest.dropWhile (fun c => c ≠ '\n'))
          constructor
          · intro b hb
            rcases List.mem_cons.mp hb with hb | hb
            · subst hb
              exact ⟨Nat.le_refl _, [1], rfl, by simp⟩
            · obtain ⟨hle, hrest⟩ := ihm b hb
              exact ⟨by omega, hrest⟩
          · rw [List.pairwise_cons]
            exact ⟨fun b' hb' => by have := (ihm b' hb').1; simp; omega, ihp⟩
        · by_cases hm : c1 = '/' ∧ c2 = '*'
          · rw [extract_go, if_neg hs, if_pos hm]
            cases hk : findCloseLen rest with
            | some k =>
              dsimp only
              obtain ⟨ihm, ihp⟩ := ih (ctr + 1) (rest.drop k)
              constructor
              · intro b hb
                rcases List.mem_cons.mp hb with hb | hb
                · subst hb
                  obtain ⟨ns, h1, h2⟩ := mkMultiSegs_idx base ctr (c1 :: c2 :: rest.take k)
                  exact ⟨Nat.le_refl _, ns, h1, h2⟩
                · obtain ⟨hle, hrest⟩ := ihm b hb
                  exact ⟨by omega, hrest⟩
              · rw [List.pairwise_cons]
                exact ⟨fun b' hb' => by have := (ihm b' hb').1; simp; omega, ihp⟩
            | none =>
              dsimp only
              exact ih ctr (c2 :: rest)
          · rw [extract_go, if_neg hs, if_neg hm]
            dsimp only
            exact ih ctr (c2 :: rest)

theorem allIndices_nodup_of_inv (base : List Char) :
    ∀ bs : List CommentBlock,
    (∀ b ∈ bs, ∃ ns : List Nat, b.segments.map Prod.fst
        = ns.map (fmtIndex base b.block_id) ∧ ns.Nodup) →
    bs.Pairwise (fun b b' => b.block_id < b'.block_id) →
    (allIndices bs).Nodup := by
  intro bs
  induction bs with
  | nil => intro _ _; simp [allIndices]
  | cons b rest ih =>
    intro hmap hpair
    rw [List.pairwise_cons] at hpair
    rw [allIndices, List.flatMap_cons, List.nodup_append]
    obtain ⟨ns, h1, h2⟩ := hmap b (by simp)
    refine ⟨?_, ?_, ?_⟩
    · rw [h1]
      exact h2.map (fun s1 s2 he => (fmtIndex_inj base b.block_id s1 b.block_id s2 he).2)
    · exact ih (fun b' hb' => hmap b' (by simp [hb'])) hpair.2
    · intro x hx hx'
      rw [h1, List.mem_map] at hx
      obtain ⟨n, _, rfl⟩ := hx
      rw [show (rest.flatMap fun bl => bl.segments.map Prod.fst) = allIndices rest
          from rfl, allIndices, List.mem_flatMap] at hx'
      obtain ⟨b', hb', hx'⟩ := hx'
      obtain ⟨ns', h1', _⟩ := hmap b' (by simp [hb'])
      rw [h1', List.mem_map] at hx'
      obtain ⟨n', _, he⟩ := hx'
      have hlt := hpair.1 b' hb'
      have := (fmtIndex_inj base b'.block_id n' b.block_id n he).1
      omega

/-- Claim C2, counterexample: index uniqueness across the whole run fails —
two input files that share a basename produce the same indices, because the
index is keyed by the basename, not the full path. -/
theorem claim_C2_counterexample :
    ¬ (allIndices (runExtract
        [(str "/a/x.cpp", str "// a"), (str "/b/x.cpp", str "// b")])).Nodup := by
  decide

/-- Claim C2, amended: all Fragment indices generated from any single input
file are pairwise distinct (each being the deterministic
basename/block-number/segment-number format); across files of one run,
indices collide whenever two files share a basename, so run-wide uniqueness
holds only under distinct basenames. -/
theorem claim_C2 (content filename : List Char) :
    (allIndices (extract_comments_from_content content filename).2).Nodup := by
  obtain ⟨hmap, hpair⟩ :=
    extract_go_inv filename (basename filename) content.length 1 content
  exact allIndices_nodup_of_inv (basename filename) _
    (fun b hb => (hmap b hb).2) hpair

theorem extract_go_congr (file base : List Char) :
    ∀ f1 : Nat, ∀ f2 ctr : Nat, ∀ l : List Char, l.length ≤ f1 → l.length ≤ f2 →
    extract_go file base f1 ctr l = extract_go file base f2 ctr l := by
  intro f1
  induction f1 with
  | zero =>
    intro f2 ctr l h1 _
    have : l = [] := by cases l with | nil => rfl | cons => simp at h1
    subst this
    cases f2 <;> rfl
  | succ g ih =>
    intro f2 ctr l h1 h2
    cases f2 with
    | zero =>
      have : l = [] := by cases l with | nil => rfl | cons => simp at h2
      subst this
      rfl
    | succ g2 =>
      cases l with
      | nil => rfl
      | cons c1 l1 =>
        cases l1 with
        | nil => rfl
        | cons c2 rest =>
          have hr : rest.length + 2 ≤ g + 1 := by simpa using h1
          have hr2 : rest.length + 2 ≤ g2 + 1 := by simpa using h2
          by_cases hs : c1 = '/' ∧ c2 = '/'
          · rw [extract_go, if_pos hs, extract_go, if_pos hs,
              ih g2 (ctr + 1) (rest.dropWhile (fun c => c ≠ '\n'))
                (by have := length_dropWhile_le' (fun c => c ≠ '\n') rest; omega)
                (by have := length_dropWhile_le' (fun c => c ≠ '\n') rest; omega)]
          · by_cases hm : c1 = '/' ∧ c2 = '*'
            · rw [extract_go, if_neg hs, if_pos hm, extract_go, if_neg hs, if_pos hm]
              cases hk : findCloseLen rest with
              | some k =>
                dsimp only
                rw [ih g2 (ctr + 1) (rest.drop k)
                  (by simp [List.length_drop]; omega) (by simp [List.length_drop]; omega)]
              | none =>
                dsimp only
                rw [ih g2 ctr (c2 :: rest) (by simp; omega) (by simp; omega)]
            · rw [extract_go, if_neg hs, if_neg hm, extract_go, if_neg hs, if_neg hm,
                ih g2 ctr (c2 :: rest) (by simp; omega) (by simp; omega)]

theorem scanToksAux_congr :
    ∀ f1 : Nat, ∀ f2 : Nat, ∀ l : List Char, l.length ≤ f1 → l.length ≤ f2 →
    scanToksAux f1 l = scanToksAux f2 l := by
  intro f1
  induction f1 with
  | zero =>
    intro f2 l h1 _
    have : l = [] := by cases l with | nil => rfl | cons => simp at h1
    subst this
    cases f2 <;> rfl
  | succ g ih =>
    intro f2 l h1 h2
    cases f2 with
    | zero =>
      have : l = [] := by cases l with | nil => rfl | cons => simp at h2
      subst this
      rfl
    | succ g2 =>
      cases l with
      | nil => rfl
      | cons c1 l1 =>
        cases l1 with
        | nil => rfl
        | cons c2 rest =>
          have hr : rest.length + 2 ≤ g + 1 := by simpa using h1
          have hr2 : rest.length + 2 ≤ g2 + 1 := by simpa using h2
          by_cases hs : c1 = '/' ∧ c2 = '/'
          · rw [scanToksAux, if_pos hs, scanToksAux, if_pos hs,
              ih g2 (rest.dropWhile (fun c => c ≠ '\n'))
                (by have := length_dropWhile_le' (fun c => c ≠ '\n') rest; omega)
                (by have := length_dropWhile_le' (fun c => c ≠ '\n') rest; omega)]
          · by_cases hm : c1 = '/' ∧ c2 = '*'
            · rw [scanToksAux, if_neg hs, if_pos hm, scanToksAux, if_neg hs, if_pos hm]
              cases hk : findCloseLen rest with
              | some k =>
                dsimp only
                rw [ih g2 (rest.drop k)
                  (by simp [List.length_drop]; omega) (by simp [List.length_drop]; omega)]
              | none =>
                dsimp only
                rw [ih g2 (c2 :: rest) (by simp; omega) (by simp; omega)]
            · rw [scanToksAux, if_neg hs, if_neg hm, scanToksAux, if_neg hs, if_neg hm,
                ih g2 (c2 :: rest) (by simp; omega) (by simp; omega)]

theorem stripPHAux_congr :
    ∀ f1 : Nat, ∀ f2 : Nat, ∀ l : List Char, l.length ≤ f1 → l.length ≤ f2 →
    stripPHAux f1 l = stripPHAux f2 l := by
  intro f1
  induction f1 with
  | zero =>
    intro f2 l h1 _
    have : l = [] := by cases l with | nil => rfl | cons => simp at h1
    subst this
    cases f2 <;> rfl
  | succ g ih =>
    intro f2 l h1 h2
    cases f2 with
    | zero =>
      have : l = [] := by cases l with | nil => rfl | cons => simp at h2
      subst this
      rfl
    | succ g2 =>
      cases l with
      | nil => rfl
      | cons c rest =>
        by_cases hp : (str "PLACEHOLDER_").isPrefixOf (c :: rest) = true
        · have hlen12 : 12 ≤ (c :: rest).length := by
            have h := isPrefixOf_length_le (str "PLACEHOLDER_") (c :: rest) hp
            rwa [show (str "PLACEHOLDER_").length = 12 from rfl] at h
          rw [stripPHAux, if_pos hp, stripPHAux, if_pos hp,
            ih g2 ((c :: rest).drop 12)
              (by rw [List.length_drop]; omega) (by rw [List.length_drop]; omega)]
        · rw [stripPHAux, if_neg hp, stripPHAux, if_neg hp,
            ih g2 rest (by simp at h1 ⊢; omega) (by simp at h2 ⊢; omega)]

theorem phToksAux_congr :
    ∀ f1 : Nat, ∀ f2 : Nat, ∀ l : List Char, l.length ≤ f1 → l.length ≤ f2 →
    phToksAux f1 l = phToksAux f2 l := by
  intro f1
  induction f1 with
  | zero =>
    intro f2 l h1 _
    have : l = [] := by cases l with | nil => rfl | cons => simp at h1
    subst this
    cases f2 <;> rfl
  | succ g ih =>
    intro f2 l h1 h2
    cases f2 with
    | zero =>
      have : l = [] := by cases l with | nil => rfl | cons => simp at h2
      subst this
      rfl
    | succ g2 =>
      cases l with
      | nil => rfl
      | cons c rest =>
        by_cases hcond : (str "PLACEHOLDER_").isPrefixOf (c :: rest) = true ∧
            ((c :: rest).drop 12).takeWhile phChar ≠ []
        · have hlen12 : 12 ≤ (c :: rest).length := by
            have h := isPrefixOf_length_le (str "PLACEHOLDER_") (c :: rest) hcond.1
            rwa [show (str "PLACEHOLDER_").length = 12 from rfl] at h
          have hb := length_dropWhile_le' phChar ((c :: rest).drop 12)
          rw [List.length_drop] at hb
          rw [phToksAux, if_pos hcond, phToksAux, if_pos hcond,
            ih g2 (((c :: rest).drop 12).dropWhile phChar) (by omega) (by omega)]
        · rw [phToksAux, if_neg hcond, phToksAux, if_neg hcond,
            ih g2 rest (by simp at h1 ⊢; omega) (by simp at h2 ⊢; omega)]

theorem reinsertAux_congr (esc : Bool) (tm : TM) :
    ∀ f1 : Nat, ∀ f2 : Nat, ∀ l : List Char, l.length ≤ f1 → l.length ≤ f2 →
    reinsertAux esc tm f1 l = reinsertAux esc tm f2 l := by
  intro f1
  induction f1 with
  | zero =>
    intro f2 l h1 _
    have : l = [] := by cases l with | nil => rfl | cons => simp at h1
    subst this
    cases f2 <;> rfl
  | succ g ih =>
    intro f2 l h1 h2
    cases f2 with
    | zero =>
      have : l = [] := by cases l with | nil => rfl | cons => simp at h2
      subst this
      rfl
    | succ g2 =>
      cases l with
      | nil => rfl
      | cons c rest =>
        by_cases hcond : (str "PLACEHOLDER_").isPrefixOf (c :: rest) = true ∧
            ((c :: rest).drop 12).takeWhile phChar ≠ []
        · have hlen12 : 12 ≤ (c :: rest).length := by
            have h := isPrefixOf_length_le (str "PLACEHOLDER_") (c :: rest) hcond.1
            rwa [show (str "PLACEHOLDER_").length = 12 from rfl] at h
          have hb := length_dropWhile_le' phChar ((c :: rest).drop 12)
          rw [List.length_drop] at hb
          rw [reinsertAux, if_pos hcond, reinsertAux, if_pos hcond]
          dsimp only
          rw [ih g2 (((c :: rest).drop 12).dropWhile phChar) (by omega) (by omega)]
        · rw [reinsertAux, if_neg hcond, reinsertAux, if_neg hcond]
          dsimp only
          rw [ih g2 rest (by simp at h1 ⊢; omega) (by simp at h2 ⊢; omega)]
